import Mathlib

/-!
Verification of the geometric utility algorithms of the cadquery_plaground
repository: the dome/dent profile fitter (util.get_center / util.get_bottom),
the knurl tool generator (util.knurl), the hexagonal ventilation mesh tiler
(enclosure.hex_mesh) and the slanted slot tiler (util.gen_slot_data /
util.slots, enclosure.slanted_slots).

The numeric code is embedded shallowly: pure rational arithmetic is modelled
over ℚ, trigonometric computations over ℝ with Real.cos / Real.sin /
Real.tan / Real.arctan, Python runtime failures (ZeroDivisionError,
IndexError, AssertionError) and the specified InvalidGeometry failure as an
explicit error type, and the solid-modelling kernel output as point sets.
-/

namespace CadqueryPlayground

/-- Failure modes observable in the scripts (Python ZeroDivisionError,
IndexError, AssertionError) together with the InvalidGeometry failure the
specification prescribes. -/
inductive PyErr where
  | zeroDivision
  | indexError
  | assertFailed
  | invalidGeometry
deriving DecidableEq

/-! ## Dome-profile fitter: util.get_center and util.get_bottom -/

/-- Embeds util.get_center (util.py lines 6-16), with mx, my, a inlined:
the y-intercept of the perpendicular bisector of the segment p1 p2, i.e. the
y-coordinate of the circle centre constrained to the symmetry axis x = 0. -/
def get_center (p1 p2 : ℚ × ℚ) : ℚ :=
  (p1.2 + p2.2) / 2 - (-(p1.1 - p2.1) / (p1.2 - p2.2)) * ((p1.1 + p2.1) / 2)

/-- util.get_center with the Python ZeroDivisionError made explicit: the
division is by p1y - p2y. -/
def getCenterE (p1 p2 : ℚ × ℚ) : Except PyErr ℚ :=
  if p1.2 - p2.2 = 0 then .error .zeroDivision else .ok (get_center p1 p2)

/-- The radius computed by util.get_bottom (util.py line 20):
r = -get_center((0, dent), (diameter/2, height)) + dent. -/
def domeR (dent diameter height : ℚ) : ℚ :=
  -get_center (0, dent) (diameter / 2, height) + dent

/-- The circle centre used by util.get_bottom: the sphere of radius r is
translated to (0, 0, -r + dent), so the centre sits at height dent - r on
the symmetry axis. -/
def domeCenter (dent diameter height : ℚ) : ℚ × ℚ :=
  (0, dent - domeR dent diameter height)

/-- The numeric phase of util.get_bottom (util.py lines 19-32): computes r
(propagating the ZeroDivisionError of get_center) and hands it to the kernel
sphere / cylinder / intersect calls.  The source performs no validation of
its own before the kernel calls. -/
def getBottomE (dent diameter height : ℚ) : Except PyErr ℚ := do
  let c ← getCenterE (0, dent) (diameter / 2, height)
  pure (-c + dent)

/-- Squared Euclidean distance in the plane (over ℚ; a point lies at
distance r ≥ 0 from c exactly when dist2 gives r^2). -/
def dist2 (p q : ℚ × ℚ) : ℚ := (p.1 - q.1) ^ 2 + (p.2 - q.2) ^ 2

/-- The assertion chain of ScrewCapContainer.__init__
(screw_cap_container.py lines 45-52): true iff every assert passes. -/
def screwCapInitOk (innerDiameter wallThickness innerHeight capHeight dent : ℚ) : Bool :=
  decide (0 < innerDiameter) && decide (0 < wallThickness) &&
  decide (0 < innerHeight) && decide (0 < capHeight) &&
  decide (0 ≤ dent) && decide (dent ≤ innerDiameter / 2) &&
  decide (capHeight - wallThickness < innerHeight + wallThickness)

/-- Closed form of the get_bottom radius: the sagitta-chord solution over the
two points (0, dent) and (diameter/2, height). -/
theorem domeR_eq (dent diameter height : ℚ) (h : dent ≠ height) :
    domeR dent diameter height
      = ((dent - height) ^ 2 + (diameter / 2) ^ 2) / (2 * (dent - height)) := by
  have hne : dent - height ≠ 0 := sub_ne_zero.mpr h
  unfold domeR get_center
  field_simp
  ring

/-- On dent ≠ height the numeric phase of get_bottom succeeds and returns
exactly the radius domeR. -/
theorem getBottomE_eq_ok (dent diameter height : ℚ) (h : dent ≠ height) :
    getBottomE dent diameter height = .ok (domeR dent diameter height) := by
  have hne : dent - height ≠ 0 := sub_ne_zero.mpr h
  simp [getBottomE, getCenterE, domeR, hne]

/-- C1 (corrected; requires shellHeight < dentDepth, which forces 0 < r — as
at every call site): the dome fitter's radius r = -get_center + dent places
the circle centre at (0, dent - r) on the symmetry axis, both input points
(0, dent) and (diameter/2, height) lie at distance exactly r (> 0) from that
centre; with height = 0 the sagitta formula
r = (dent^2 + (diameter/2)^2) / (2 dent) holds, and dent = diameter/2 with
height = 0 gives the hemisphere r = diameter/2. -/
theorem dome_radius_correct (dent diameter height : ℚ)
    (hd : 0 < dent) (hdiam : 0 < diameter) (hh : 0 ≤ height) (hlt : height < dent) :
    (domeCenter dent diameter height).1 = 0 ∧
    (domeCenter dent diameter height).2 = get_center (0, dent) (diameter / 2, height) ∧
    dist2 (domeCenter dent diameter height) (0, dent) = domeR dent diameter height ^ 2 ∧
    dist2 (domeCenter dent diameter height) (diameter / 2, height)
      = domeR dent diameter height ^ 2 ∧
    0 < domeR dent diameter height ∧
    (height = 0 →
      domeR dent diameter height = (dent ^ 2 + (diameter / 2) ^ 2) / (2 * dent)) ∧
    (height = 0 → dent = diameter / 2 → domeR dent diameter height = diameter / 2) := by
  have hne : dent - height ≠ 0 := sub_ne_zero.mpr (ne_of_gt hlt)
  have hr := domeR_eq dent diameter height (ne_of_gt hlt)
  refine ⟨rfl, ?_, ?_, ?_, ?_, ?_, ?_⟩
  · unfold domeCenter domeR
    ring
  · unfold dist2 domeCenter
    ring
  · unfold dist2 domeCenter
    rw [hr]
    field_simp
    ring
  · rw [hr]
    have hnum : 0 < (dent - height) ^ 2 + (diameter / 2) ^ 2 := by positivity
    have hden : 0 < 2 * (dent - height) := by linarith
    positivity
  · intro h0
    rw [hr, h0]
    ring_nf
  · intro h0 hhemi
    rw [hr, h0, hhemi]
    have : diameter / 2 ≠ 0 := by positivity
    field_simp
    ring

/-- C1 witness: the call-site shape dent = 4, diameter = 18, height = 3/2
(the spec's end-to-end dome scenario). -/
theorem dome_radius_correct_witness :
    dist2 (domeCenter 4 18 (3 / 2)) (18 / 2, 3 / 2) = domeR 4 18 (3 / 2) ^ 2 ∧
      0 < domeR 4 18 (3 / 2) :=
  ⟨(dome_radius_correct 4 18 (3 / 2) (by norm_num) (by norm_num) (by norm_num)
      (by norm_num)).2.2.2.1,
   (dome_radius_correct 4 18 (3 / 2) (by norm_num) (by norm_num) (by norm_num)
      (by norm_num)).2.2.2.2.1⟩

/-- C1 counterexample: at dentDepth = 1, baseDiameter = 2, shellHeight = 5 —
inside the claim's stated domain (all positive, dent ≠ height) — the computed
radius is negative (r = -17/8), while both input points lie at distance
17/8 = -r from the centre, so neither lies at distance exactly r: the claim
fails whenever shellHeight > dentDepth. -/
theorem dome_radius_negative_counterexample :
    domeR 1 2 5 < 0 ∧
      dist2 (domeCenter 1 2 5) (0, 1) = (17 / 8 : ℚ) ^ 2 ∧
      dist2 (domeCenter 1 2 5) (1, 5) = (17 / 8 : ℚ) ^ 2 := by
  refine ⟨?_, ?_, ?_⟩ <;> norm_num [domeR, domeCenter, dist2, get_center]

/-- C9: get_bottom at dent = height hits get_center's division by
p1y - p2y = 0: a ZeroDivisionError (not InvalidGeometry); for every
dent ≠ height the computation is total and the error branch unreachable. -/
theorem get_bottom_div_by_zero :
    (∀ dent diameter : ℚ, getBottomE dent diameter dent = .error .zeroDivision) ∧
    (∀ dent diameter height : ℚ, dent ≠ height →
      getBottomE dent diameter height = .ok (domeR dent diameter height)) := by
  constructor
  · intro dent diameter
    simp [getBottomE, getCenterE]
  · intro dent diameter height h
    exact getBottomE_eq_ok dent diameter height h

/-- C9 witness: dent = height = 5 diverges with ZeroDivisionError; dent = 5,
height = 2 (a screw-cap call-site shape) is total. -/
theorem get_bottom_div_by_zero_witness :
    getBottomE 5 40 5 = .error .zeroDivision ∧ getBottomE 5 40 2 = .ok (domeR 5 40 2) :=
  ⟨get_bottom_div_by_zero.1 5 40, get_bottom_div_by_zero.2 5 40 2 (by norm_num)⟩

/-- C4 counterexample: get_bottom called with dentDepth = 3 exceeding
baseDiameter/2 = 2 (shellHeight 0) does not fail: its numeric phase computes
r = 13/6 and proceeds straight to the kernel geometry calls, raising no
InvalidGeometry. -/
theorem get_bottom_no_eager_validation : getBottomE 3 4 0 = .ok (13 / 6) := by
  rw [getBottomE_eq_ok 3 4 0 (by norm_num)]
  norm_num [domeR, get_center]

/-- C4 (corrected): get_bottom itself performs no validation — for every
dent ≠ height its numeric phase succeeds, whatever the sign of the inputs or
the relation of dent to diameter/2 — while the eager range validation lives
solely in ScrewCapContainer.__init__, whose assertion chain holds exactly
when all dimensions are positive, 0 ≤ dent ≤ innerDiameter/2, and
capHeight - wallThickness < innerHeight + wallThickness. -/
theorem dome_validation_sites :
    (∀ dent diameter height : ℚ, dent ≠ height →
      (getBottomE dent diameter height).isOk = true) ∧
    (∀ iD wT iH cH dent : ℚ,
      screwCapInitOk iD wT iH cH dent = true ↔
        (0 < iD ∧ 0 < wT ∧ 0 < iH ∧ 0 < cH ∧ 0 ≤ dent ∧ dent ≤ iD / 2 ∧
          cH - wT < iH + wT)) := by
  constructor
  · intro dent diameter height h
    rw [getBottomE_eq_ok dent diameter height h]
    rfl
  · intro iD wT iH cH dent
    simp [screwCapInitOk, and_assoc]

/-- C4 witness: a dome request over the half-diameter bound still succeeds
eagerly, and the default screw-cap parameters pass the __init__ asserts. -/
theorem dome_validation_sites_witness :
    (getBottomE 3 4 0).isOk = true ∧ screwCapInitOk 40 2 50 10 5 = true :=
  ⟨dome_validation_sites.1 3 4 0 (by norm_num),
   (dome_validation_sites.2 40 2 50 10 5).mpr (by norm_num)⟩

/-! ## Slot tiler: util.gen_slot_data and util.slots -/

/-- find_on_x from gen_slot_data (util.py line 188): intersection of the
slope-ac line through pt with the vertical line at x. -/
def find_on_x (ac : ℚ) (pt : ℚ × ℚ) (x : ℚ) : ℚ × ℚ := (x, ac * (x - pt.1) + pt.2)

/-- find_on_y from gen_slot_data (util.py line 191), pure value; the ac = 0
ZeroDivisionError is modelled in findOnYE and widthE. -/
def find_on_y (ac : ℚ) (pt : ℚ × ℚ) (y : ℚ) : ℚ × ℚ := (pt.1 + (y - pt.2) / ac, y)

/-- find_on_y with the Python ZeroDivisionError (division by ac) explicit. -/
def findOnYE (ac : ℚ) (pt : ℚ × ℚ) (y : ℚ) : Except PyErr (ℚ × ℚ) :=
  if ac = 0 then .error .zeroDivision else .ok (find_on_y ac pt y)

/-- The in-rectangle filter predicate of gen_slot_data.width
(util.py lines 202-210). -/
def inRect (w h : ℚ) (p : ℚ × ℚ) : Bool :=
  decide (p.1 ≤ w / 2) && decide (p.2 ≤ h / 2) &&
    decide (-(w / 2) ≤ p.1) && decide (-(h / 2) ≤ p.2)

/-- The four candidate boundary intersections of gen_slot_data.width, in
source order (util.py lines 195-200). -/
def chordCands (w h ac : ℚ) (pt : ℚ × ℚ) : List (ℚ × ℚ) :=
  [find_on_x ac pt (w / 2), find_on_x ac pt (-(w / 2)),
   find_on_y ac pt (h / 2), find_on_y ac pt (-(h / 2))]

/-- The kept intersections: the candidates filtered to the rectangle (the
list ps of gen_slot_data.width). -/
def chordPoints (w h ac : ℚ) (pt : ℚ × ℚ) : List (ℚ × ℚ) :=
  (chordCands w h ac pt).filter (inRect w h)

/-- gen_slot_data.width with the Python failure modes explicit: a
ZeroDivisionError from find_on_y when ac = 0, an IndexError when fewer than
two candidates survive the filter; returns the slot midpoint together with
the two kept points ps[0], ps[1] (the source returns the midpoint and their
Euclidean distance, a total computation on the kept points). -/
def widthE (w h ac : ℚ) (pt : ℚ × ℚ) : Except PyErr ((ℚ × ℚ) × (ℚ × ℚ) × (ℚ × ℚ)) :=
  if ac = 0 then .error .zeroDivision
  else
    match chordPoints w h ac pt with
    | p0 :: p1 :: _ => .ok (((p0.1 + p1.1) / 2, (p0.2 + p1.2) / 2), p0, p1)
    | _ => .error .indexError

/-- The slot placement points of gen_slot_data (util.py lines 180-186):
nh points stepping down the diagonal from the top-right region of the
rectangle, with dx = w/(nh+1), dy = h/(nh+1). -/
def slotPts (w h : ℚ) (nh : ℕ) : List (ℚ × ℚ) :=
  (List.range nh).map fun (i : ℕ) =>
    (w / 2 - w / ((nh : ℚ) + 1) * ((i : ℚ) + 1), h / 2 - h / ((nh : ℚ) + 1) * ((i : ℚ) + 1))

/-- The slope ac computed by gen_slot_data from an explicit angle a in
degrees (util.py line 175): ac = tan(radians(a - 90)). -/
noncomputable def slotSlope (a : ℝ) : ℝ := Real.tan ((a - 90) * Real.pi / 180)

/-- A list with two distinct members has length at least two. -/
theorem two_mem_length_ge {α : Type} {l : List α} {a b : α}
    (ha : a ∈ l) (hb : b ∈ l) (hab : a ≠ b) : 2 ≤ l.length := by
  match l with
  | [] => exact absurd ha (List.not_mem_nil a)
  | [x] =>
    simp only [List.mem_singleton] at ha hb
    exact absurd (ha.trans hb.symm) hab
  | x :: y :: t => simp only [List.length_cons]; omega

/-- Unfolding of the boolean rectangle filter. -/
theorem inRect_iff (w h : ℚ) (p : ℚ × ℚ) :
    inRect w h p = true ↔
      (p.1 ≤ w / 2 ∧ p.2 ≤ h / 2 ∧ -(w / 2) ≤ p.1 ∧ -(h / 2) ≤ p.2) := by
  simp [inRect, and_assoc]

/-- A candidate within the rectangle is kept. -/
theorem mem_chordPoints_of (w h ac : ℚ) (pt q : ℚ × ℚ)
    (hq : q ∈ chordCands w h ac pt)
    (h1 : q.1 ≤ w / 2) (h2 : q.2 ≤ h / 2) (h3 : -(w / 2) ≤ q.1) (h4 : -(h / 2) ≤ q.2) :
    q ∈ chordPoints w h ac pt :=
  List.mem_filter.mpr ⟨hq, (inRect_iff w h q).mpr ⟨h1, h2, h3, h4⟩⟩

/-- Every kept intersection lies exactly on one of the four boundary lines
and satisfies both rectangle bounds. -/
theorem chordPoints_on_boundary (w h ac : ℚ) (pt q : ℚ × ℚ)
    (hq : q ∈ chordPoints w h ac pt) :
    (q.1 = w / 2 ∨ q.1 = -(w / 2) ∨ q.2 = h / 2 ∨ q.2 = -(h / 2)) ∧
      |q.1| ≤ w / 2 ∧ |q.2| ≤ h / 2 := by
  rw [chordPoints, List.mem_filter] at hq
  obtain ⟨hc, hp⟩ := hq
  obtain ⟨h1, h2, h3, h4⟩ := (inRect_iff w h q).mp hp
  refine ⟨?_, abs_le.mpr ⟨h3, h1⟩, abs_le.mpr ⟨h4, h2⟩⟩
  simp only [chordCands, List.mem_cons, List.not_mem_nil, or_false] at hc
  rcases hc with rfl | rfl | rfl | rfl
  · exact Or.inl rfl
  · exact Or.inr (Or.inl rfl)
  · exact Or.inr (Or.inr (Or.inl rfl))
  · exact Or.inr (Or.inr (Or.inr rfl))

/-- For a placement point strictly inside the rectangle and a nonzero slope,
at least two of the four candidates survive the rectangle filter: the line
through pt exits the rectangle once on each side of pt. -/
theorem chordPoints_two_mem (w h ac : ℚ) (pt : ℚ × ℚ)
    (hw : 0 < w) (hh : 0 < h) (hx : |pt.1| < w / 2) (hy : |pt.2| < h / 2)
    (hac : ac ≠ 0) : 2 ≤ (chordPoints w h ac pt).length := by
  obtain ⟨hx1, hx2⟩ := abs_lt.mp hx
  obtain ⟨hy1, hy2⟩ := abs_lt.mp hy
  have hR : ∃ q, q ∈ chordPoints w h ac pt ∧ pt.1 < q.1 := by
    rcases lt_or_gt_of_ne hac with hneg | hpos
    · by_cases hA : -(h / 2) ≤ ac * (w / 2 - pt.1) + pt.2
      · refine ⟨find_on_x ac pt (w / 2),
          mem_chordPoints_of w h ac pt _ (by simp [chordCands]) ?_ ?_ ?_ ?_, ?_⟩ <;>
            simp only [find_on_x]
        · exact le_refl _
        · nlinarith [mul_neg_of_neg_of_pos hneg (show (0:ℚ) < w / 2 - pt.1 by linarith)]
        · linarith
        · exact hA
        · exact hx2
      · push_neg at hA
        have hq : 0 < (-(h / 2) - pt.2) / ac := by
          rw [div_pos_iff]
          exact Or.inr ⟨by linarith, hneg⟩
        refine ⟨find_on_y ac pt (-(h / 2)),
          mem_chordPoints_of w h ac pt _ (by simp [chordCands]) ?_ ?_ ?_ ?_, ?_⟩ <;>
            simp only [find_on_y]
        · have : (-(h / 2) - pt.2) / ac ≤ w / 2 - pt.1 := by
            rw [div_le_iff_of_neg hneg]
            nlinarith
          linarith
        · linarith
        · linarith
        · exact le_refl _
        · linarith
    · by_cases hA : ac * (w / 2 - pt.1) + pt.2 ≤ h / 2
      · refine ⟨find_on_x ac pt (w / 2),
          mem_chordPoints_of w h ac pt _ (by simp [chordCands]) ?_ ?_ ?_ ?_, ?_⟩ <;>
            simp only [find_on_x]
        · exact le_refl _
        · exact hA
        · linarith
        · nlinarith [mul_pos hpos (show (0:ℚ) < w / 2 - pt.1 by linarith)]
        · exact hx2
      · push_neg at hA
        have hq : 0 < (h / 2 - pt.2) / ac := div_pos (by linarith) hpos
        refine ⟨find_on_y ac pt (h / 2),
          mem_chordPoints_of w h ac pt _ (by simp [chordCands]) ?_ ?_ ?_ ?_, ?_⟩ <;>
            simp only [find_on_y]
        · have : (h / 2 - pt.2) / ac ≤ w / 2 - pt.1 := by
            rw [div_le_iff hpos]
            nlinarith
          linarith
        · exact le_refl _
        · linarith
        · linarith
        · linarith
  have hL : ∃ q, q ∈ chordPoints w h ac pt ∧ q.1 < pt.1 := by
    rcases lt_or_gt_of_ne hac with hneg | hpos
    · by_cases hB : ac * (-(w / 2) - pt.1) + pt.2 ≤ h / 2
      · refine ⟨find_on_x ac pt (-(w / 2)),
          mem_chordPoints_of w h ac pt _ (by simp [chordCands]) ?_ ?_ ?_ ?_, ?_⟩ <;>
            simp only [find_on_x]
        · linarith
        · exact hB
        · exact le_refl _
        · nlinarith [mul_pos_of_neg_of_neg hneg (show -(w / 2) - pt.1 < 0 by linarith)]
        · exact hx1
      · push_neg at hB
        have hq : (h / 2 - pt.2) / ac < 0 := by
          rw [div_neg_iff]
          exact Or.inl ⟨by linarith, hneg⟩
        refine ⟨find_on_y ac pt (h / 2),
          mem_chordPoints_of w h ac pt _ (by simp [chordCands]) ?_ ?_ ?_ ?_, ?_⟩ <;>
            simp only [find_on_y]
        · linarith
        · exact le_refl _
        · have : -(w / 2) - pt.1 ≤ (h / 2 - pt.2) / ac := by
            rw [le_div_iff_of_neg hneg]
            nlinarith
          linarith
        · linarith
        · linarith
    · by_cases hB : -(h / 2) ≤ ac * (-(w / 2) - pt.1) + pt.2
      · refine ⟨find_on_x ac pt (-(w / 2)),
          mem_chordPoints_of w h ac pt _ (by simp [chordCands]) ?_ ?_ ?_ ?_, ?_⟩ <;>
            simp only [find_on_x]
        · linarith
        · nlinarith [mul_neg_of_pos_of_neg hpos (show -(w / 2) - pt.1 < 0 by linarith)]
        · exact le_refl _
        · exact hB
        · exact hx1
      · push_neg at hB
        have hq : (-(h / 2) - pt.2) / ac < 0 := by
          rw [div_neg_iff]
          exact Or.inr ⟨by linarith, hpos⟩
        refine ⟨find_on_y ac pt (-(h / 2)),
          mem_chordPoints_of w h ac pt _ (by simp [chordCands]) ?_ ?_ ?_ ?_, ?_⟩ <;>
            simp only [find_on_y]
        · linarith
        · linarith
        · have : -(w / 2) - pt.1 ≤ (-(h / 2) - pt.2) / ac := by
            rw [le_div_iff hpos]
            nlinarith
          linarith
        · exact le_refl _
        · linarith
  obtain ⟨qR, hmR, hRgt⟩ := hR
  obtain ⟨qL, hmL, hLlt⟩ := hL
  refine two_mem_length_ge hmR hmL ?_
  intro he
  rw [he] at hRgt
  linarith

/-- Every slot placement point generated by gen_slot_data lies strictly
inside the w × h rectangle. -/
theorem slotPts_inside (w h : ℚ) (nh : ℕ) (hw : 0 < w) (hh : 0 < h)
    (pt : ℚ × ℚ) (hpt : pt ∈ slotPts w h nh) : |pt.1| < w / 2 ∧ |pt.2| < h / 2 := by
  simp only [slotPts] at hpt
  obtain ⟨i, hi, heq⟩ := List.mem_map.mp hpt
  rw [List.mem_range] at hi
  subst heq
  have hn1 : (0 : ℚ) < (nh : ℚ) + 1 := by positivity
  have hi0 : (1 : ℚ) ≤ (i : ℚ) + 1 := by
    have : (0 : ℚ) ≤ (i : ℚ) := Nat.cast_nonneg i
    linarith
  have hin : (i : ℚ) + 1 ≤ (nh : ℚ) := by exact_mod_cast Nat.succ_le_of_lt hi
  have hwpos : 0 < w / ((nh : ℚ) + 1) := div_pos hw hn1
  have hhpos : 0 < h / ((nh : ℚ) + 1) := div_pos hh hn1
  have hwlt : w / ((nh : ℚ) + 1) * ((i : ℚ) + 1) < w := by
    have h1 : w / ((nh : ℚ) + 1) * ((i : ℚ) + 1) ≤ w / ((nh : ℚ) + 1) * (nh : ℚ) :=
      mul_le_mul_of_nonneg_left hin (le_of_lt hwpos)
    have h2 : w / ((nh : ℚ) + 1) * (nh : ℚ) < w := by
      rw [div_mul_eq_mul_div, div_lt_iff hn1]
      nlinarith
    linarith
  have hhlt : h / ((nh : ℚ) + 1) * ((i : ℚ) + 1) < h := by
    have h1 : h / ((nh : ℚ) + 1) * ((i : ℚ) + 1) ≤ h / ((nh : ℚ) + 1) * (nh : ℚ) :=
      mul_le_mul_of_nonneg_left hin (le_of_lt hhpos)
    have h2 : h / ((nh : ℚ) + 1) * (nh : ℚ) < h := by
      rw [div_mul_eq_mul_div, div_lt_iff hn1]
      nlinarith
    linarith
  constructor
  · rw [abs_lt]
    constructor
    · simp only
      nlinarith [mul_le_mul_of_nonneg_left hi0 (le_of_lt hwpos)]
    · simp only
      nlinarith [mul_le_mul_of_nonneg_left hi0 (le_of_lt hwpos)]
  · rw [abs_lt]
    constructor
    · simp only
      nlinarith [mul_le_mul_of_nonneg_left hi0 (le_of_lt hhpos)]
    · simp only
      nlinarith [mul_le_mul_of_nonneg_left hi0 (le_of_lt hhpos)]

/-- C6: for every slot placement point strictly inside the W × H rectangle
centred at the origin and every slope ac ≠ 0, the kept boundary
intersections are at least two, and each kept point lies exactly on one
rectangle edge (x = ±W/2 or y = ±H/2) and satisfies both axis bounds. -/
theorem slot_chord_correct (w h ac : ℚ) (pt : ℚ × ℚ)
    (hw : 0 < w) (hh : 0 < h) (hx : |pt.1| < w / 2) (hy : |pt.2| < h / 2)
    (hac : ac ≠ 0) :
    2 ≤ (chordPoints w h ac pt).length ∧
      ∀ q ∈ chordPoints w h ac pt,
        (q.1 = w / 2 ∨ q.1 = -(w / 2) ∨ q.2 = h / 2 ∨ q.2 = -(h / 2)) ∧
          |q.1| ≤ w / 2 ∧ |q.2| ≤ h / 2 :=
  ⟨chordPoints_two_mem w h ac pt hw hh hx hy hac,
   fun q hq => chordPoints_on_boundary w h ac pt q hq⟩

/-- C6 witness: a 4 × 4 rectangle, slope 1, placement point (1, 0). -/
theorem slot_chord_correct_witness : 2 ≤ (chordPoints 4 4 1 (1, 0)).length :=
  (slot_chord_correct 4 4 1 (1, 0) (by norm_num) (by norm_num) (by norm_num)
    (by norm_num) (by norm_num)).1

/-- C10: with an explicit angle of 90 degrees gen_slot_data computes the
slope ac = tan(radians(90 - 90)) = 0 exactly, and consuming the returned
slot data then raises ZeroDivisionError inside find_on_y (modelled by
widthE); with ac ≠ 0 (angle not congruent to 90 mod 180) and sane region
parameters every placement point's width computation is total. -/
theorem slots_angle90_div_by_zero :
    slotSlope 90 = 0 ∧
    (∀ (w h : ℚ) (pt : ℚ × ℚ), widthE w h 0 pt = .error .zeroDivision) ∧
    (∀ (w h ac : ℚ) (nh : ℕ), 0 < w → 0 < h → ac ≠ 0 →
      ∀ pt ∈ slotPts w h nh, (widthE w h ac pt).isOk = true) := by
  refine ⟨?_, ?_, ?_⟩
  · unfold slotSlope
    norm_num
  · intro w h pt
    simp [widthE]
  · intro w h ac nh hw hh hac pt hpt
    obtain ⟨hx, hy⟩ := slotPts_inside w h nh hw hh pt hpt
    have hlen := chordPoints_two_mem w h ac pt hw hh hx hy hac
    match hcp : chordPoints w h ac pt with
    | [] => rw [hcp] at hlen; simp at hlen
    | [p0] => rw [hcp] at hlen; simp at hlen
    | p0 :: p1 :: t => simp [widthE, hac, hcp, Except.isOk, Except.toBool]

/-- C10 witness: the first placement point of a 4 × 4 region with nh = 2 and
slope 1 evaluates successfully. -/
theorem slots_angle90_div_by_zero_witness :
    (widthE 4 4 1 (2 / 3, 2 / 3)).isOk = true :=
  slots_angle90_div_by_zero.2.2 4 4 1 2 (by norm_num) (by norm_num) (by norm_num)
    (2 / 3, 2 / 3) (by
      simp only [slotPts]
      refine List.mem_map.mpr ⟨0, by simp, ?_⟩
      norm_num [Prod.ext_iff])

/-! ## Knurl tool generator: util.knurl -/

/-- length = 2 * cut_depth (util.py line 36). -/
def knurlLength (cut_depth : ℝ) : ℝ := 2 * cut_depth

/-- x1 = length * cos(radians(cut_angle / 2)) (util.py line 37). -/
noncomputable def knurlX1 (cut_angle cut_depth : ℝ) : ℝ :=
  knurlLength cut_depth * Real.cos (cut_angle / 2 * Real.pi / 180)

/-- y1 = length * sin(radians(cut_angle / 2)) (util.py line 38). -/
noncomputable def knurlY1 (cut_angle cut_depth : ℝ) : ℝ :=
  knurlLength cut_depth * Real.sin (cut_angle / 2 * Real.pi / 180)

/-- doprofile's sketch (util.py lines 40-52) assembles the closed triangle
(0,0) - (x1,y1) - (x1,-y1) and places it at the pushed location
(-cut_depth, 0); these are the three vertices of the translated triangle.
wedgeV0 is the apex. -/
def wedgeV0 (cut_angle cut_depth : ℝ) : ℝ × ℝ := (-cut_depth, 0)

/-- Upper base vertex of the translated profile triangle. -/
noncomputable def wedgeV1 (cut_angle cut_depth : ℝ) : ℝ × ℝ :=
  (knurlX1 cut_angle cut_depth - cut_depth, knurlY1 cut_angle cut_depth)

/-- Lower base vertex of the translated profile triangle. -/
noncomputable def wedgeV2 (cut_angle cut_depth : ℝ) : ℝ × ℝ :=
  (knurlX1 cut_angle cut_depth - cut_depth, -knurlY1 cut_angle cut_depth)

/-- The assembled triangular face of one wedge profile. -/
noncomputable def wedge (cut_angle cut_depth : ℝ) : Set (ℝ × ℝ) :=
  convexHull ℝ {wedgeV0 cut_angle cut_depth, wedgeV1 cut_angle cut_depth,
    wedgeV2 cut_angle cut_depth}

/-- Rotation by t radians about the origin: the rotation component of the
locations produced by parray and of twistExtrude's continuous section
rotation. -/
noncomputable def Rot (t : ℝ) (p : ℝ × ℝ) : ℝ × ℝ :=
  (Real.cos t * p.1 - Real.sin t * p.2, Real.sin t * p.1 + Real.cos t * p.2)

/-- The wedge profile translated out to the cylinder radius along x (the
parray location at angle 0 applied to the moved sketch). -/
noncomputable def wedgeAt (radius cut_angle cut_depth : ℝ) : Set (ℝ × ℝ) :=
  (fun p : ℝ × ℝ => (p.1 + radius, p.2)) '' wedge cut_angle cut_depth

/-- Sketch().parray(radius, 0, 360, n).each(doprofile) (util.py line 54):
n replicas of the placed wedge, the k-th rotated to angle 2πk/n. -/
noncomputable def knurlProfiles (radius cut_angle cut_depth : ℝ) (n : ℕ) :
    List (Set (ℝ × ℝ)) :=
  (List.range n).map fun (k : ℕ) =>
    Rot (2 * Real.pi * (k : ℝ) / (n : ℝ)) '' wedgeAt radius cut_angle cut_depth

/-- The pre-kernel phase of util.knurl (lines 35-59): computes the profile
offsets and the n placed replicas, then issues the kernel twistExtrude /
union / cut calls.  The source contains no validation branch whatsoever
(no check of cut_depth against radius, none of n), so this phase never
fails. -/
noncomputable def knurlE (height radius cut_angle cut_depth angle : ℝ) (n : ℕ) :
    Except PyErr (List (Set (ℝ × ℝ))) :=
  .ok (knurlProfiles radius cut_angle cut_depth n)

/-- The union of the n placed profiles: the full cross-section s1. -/
def knurlSection (radius cut_angle cut_depth : ℝ) (n : ℕ) : Set (ℝ × ℝ) :=
  {p | ∃ s ∈ knurlProfiles radius cut_angle cut_depth n, p ∈ s}

/-- twistExtrude(height, angle): a point at height z lies in the twisted
solid iff rotating it back by the section rotation angle·z/height (angle in
degrees) lands in the base cross-section S, for 0 ≤ z ≤ height. -/
noncomputable def twistSolid (S : Set (ℝ × ℝ)) (height angle : ℝ) : Set ((ℝ × ℝ) × ℝ) :=
  {q | 0 ≤ q.2 ∧ q.2 ≤ height ∧
    Rot (-(angle * Real.pi / 180) * q.2 / height) q.1 ∈ S}

/-- The knurl cutting tool (util.py lines 56-59): the union w1 ∪ w2 of the
+angle and -angle twisted extrusions of the section. -/
noncomputable def knurlTool (height radius cut_angle cut_depth angle : ℝ) (n : ℕ) :
    Set ((ℝ × ℝ) × ℝ) :=
  twistSolid (knurlSection radius cut_angle cut_depth n) height angle ∪
    twistSolid (knurlSection radius cut_angle cut_depth n) height (-angle)

/-- The lateral half-span of the wedge base as built by the code:
y1 = 2·cut_depth·sin(radians(cut_angle/2)). -/
noncomputable def wedgeHalfSpan (cut_angle cut_depth : ℝ) : ℝ := knurlY1 cut_angle cut_depth

/-- The lateral half-span asserted by the specification: length·sin(cut_angle/2)
with length = 2·cut_depth / cos(cut_angle/2), i.e. 2·cut_depth·tan(cut_angle/2).
Stated from the spec's words, for comparison against the code's wedgeHalfSpan. -/
noncomputable def specWedgeHalfSpan (cut_angle cut_depth : ℝ) : ℝ :=
  2 * cut_depth / Real.cos (cut_angle / 2 * Real.pi / 180) *
    Real.sin (cut_angle / 2 * Real.pi / 180)

theorem Rot_add (a b : ℝ) (p : ℝ × ℝ) : Rot a (Rot b p) = Rot (a + b) p := by
  unfold Rot
  simp only [Prod.mk.injEq]
  constructor <;> (rw [Real.cos_add, Real.sin_add]; ring)

theorem Rot_zero (p : ℝ × ℝ) : Rot 0 p = p := by
  unfold Rot
  simp

theorem Rot_two_pi (p : ℝ × ℝ) : Rot (2 * Real.pi) p = p := by
  unfold Rot
  simp [Real.cos_two_pi, Real.sin_two_pi]

/-- Rotating the n-fold profile array by one step 2π/n permutes its
replicas, so the cross-section is invariant. -/
theorem knurlSection_rot (radius cut_angle cut_depth : ℝ) (n : ℕ) (hn : 1 ≤ n)
    (p : ℝ × ℝ) (hp : p ∈ knurlSection radius cut_angle cut_depth n) :
    Rot (2 * Real.pi / (n : ℝ)) p ∈ knurlSection radius cut_angle cut_depth n := by
  obtain ⟨s, hs, hps⟩ := hp
  simp only [knurlProfiles, List.mem_map, List.mem_range] at hs
  obtain ⟨k, hk, rfl⟩ := hs
  obtain ⟨q, hq, rfl⟩ := hps
  have hn0 : (n : ℝ) ≠ 0 := Nat.cast_ne_zero.mpr (by omega)
  by_cases hkn : k + 1 < n
  · refine ⟨Rot (2 * Real.pi * ((k + 1 : ℕ) : ℝ) / (n : ℝ)) ''
      wedgeAt radius cut_angle cut_depth, ?_, ?_⟩
    · simp only [knurlProfiles, List.mem_map, List.mem_range]
      exact ⟨k + 1, hkn, rfl⟩
    · refine ⟨q, hq, ?_⟩
      rw [Rot_add]
      congr 1
      push_cast
      field_simp
      ring
  · have hkeq : k + 1 = n := by omega
    refine ⟨Rot (2 * Real.pi * ((0 : ℕ) : ℝ) / (n : ℝ)) ''
      wedgeAt radius cut_angle cut_depth, ?_, ?_⟩
    · simp only [knurlProfiles, List.mem_map, List.mem_range]
      exact ⟨0, by omega, rfl⟩
    · refine ⟨q, hq, ?_⟩
      rw [Rot_add]
      have hk' : (k : ℝ) + 1 = (n : ℝ) := by exact_mod_cast congrArg Nat.cast hkeq
      have hsum : 2 * Real.pi / (n : ℝ) + 2 * Real.pi * (k : ℝ) / (n : ℝ)
          = 2 * Real.pi := by
        field_simp
        rw [← hk']
        ring
      rw [hsum, Rot_two_pi]
      have h00 : 2 * Real.pi * ((0 : ℕ) : ℝ) / (n : ℝ) = 0 := by simp
      rw [h00, Rot_zero]

/-- C7: the knurl cutting tool with count n is invariant under rotation by
2π/n (= 360/n degrees) about the cylinder axis: the n profile replicas sit
at equal angular spacing and both twisted extrusions commute with the
rotation. -/
theorem knurl_count_invariant (height radius cut_angle cut_depth angle : ℝ) (n : ℕ)
    (hn : 3 ≤ n) (q : (ℝ × ℝ) × ℝ)
    (hq : q ∈ knurlTool height radius cut_angle cut_depth angle n) :
    (Rot (2 * Real.pi / (n : ℝ)) q.1, q.2)
      ∈ knurlTool height radius cut_angle cut_depth angle n := by
  have hn1 : 1 ≤ n := by omega
  simp only [knurlTool, Set.mem_union, twistSolid, Set.mem_setOf_eq] at hq ⊢
  rcases hq with ⟨h0, hht, hS⟩ | ⟨h0, hht, hS⟩
  · refine Or.inl ⟨h0, hht, ?_⟩
    rw [Rot_add, add_comm, ← Rot_add]
    exact knurlSection_rot radius cut_angle cut_depth n hn1 _ hS
  · refine Or.inr ⟨h0, hht, ?_⟩
    rw [Rot_add, add_comm, ← Rot_add]
    exact knurlSection_rot radius cut_angle cut_depth n hn1 _ hS

/-- C7 witness: the placed apex point ((4,0), z=0) of a 3-count knurl tool
(height 1, radius 5, cut angle 90, cut depth 1, twist 40), rotated by 2π/3,
is again in the tool. -/
theorem knurl_count_invariant_witness :
    (Rot (2 * Real.pi / (3 : ℝ)) (4, 0), (0 : ℝ)) ∈ knurlTool 1 5 90 1 40 3 := by
  have h3 : ((3 : ℕ) : ℝ) = (3 : ℝ) := by norm_num
  rw [← h3]
  apply knurl_count_invariant 1 5 90 1 40 3 (by norm_num) ((4, 0), (0 : ℝ))
  simp only [knurlTool, Set.mem_union, twistSolid, Set.mem_setOf_eq]
  left
  refine ⟨le_refl 0, by norm_num, ?_⟩
  have h0 : -(40 * Real.pi / 180) * (0 : ℝ) / 1 = 0 := by ring
  rw [h0, Rot_zero]
  refine ⟨Rot (2 * Real.pi * ((0 : ℕ) : ℝ) / ((3 : ℕ) : ℝ)) '' wedgeAt 5 90 1, ?_, ?_⟩
  · simp only [knurlProfiles, List.mem_map, List.mem_range]
    exact ⟨0, by norm_num, rfl⟩
  · have h00 : 2 * Real.pi * ((0 : ℕ) : ℝ) / ((3 : ℕ) : ℝ) = 0 := by simp
    rw [h00]
    refine ⟨(4, 0), ?_, Rot_zero _⟩
    refine ⟨(-1, 0), ?_, by norm_num⟩
    simp only [wedge]
    exact subset_convexHull ℝ _ (by simp [wedgeV0])

/-- C5 counterexample: cutDepth = 5 ≥ radius = 3 and count = 2 < 3, yet
knurl does not fail with InvalidGeometry: its pre-kernel phase succeeds and
proceeds to build geometry. -/
theorem knurl_accepts_invalid_counterexample : (knurlE 60 3 90 5 30 2).isOk = true := rfl

/-- C5 (corrected): knurl enforces nothing: for every input — including
cutDepth ≥ radius and count < 3 — the pre-kernel phase succeeds and builds
exactly count profile replicas; the invariant cutDepth < radius is assumed,
never checked. -/
theorem knurl_no_validation (height radius cut_angle cut_depth angle : ℝ) (n : ℕ) :
    knurlE height radius cut_angle cut_depth angle n
        = .ok (knurlProfiles radius cut_angle cut_depth n) ∧
      (knurlProfiles radius cut_angle cut_depth n).length = n :=
  ⟨rfl, by simp [knurlProfiles]⟩

/-- C2 (corrected): the wedge profile is the triangle with apex (-cutDepth, 0)
— set back cutDepth from the cylinder surface, i.e. at radius - cutDepth once
placed — whose two apex edges have length 2·cutDepth and direction ±(cut
angle/2) from the radial axis (apex half-angle cutAngleDeg/2, not cutAngleDeg),
whose base spans ±2·cutDepth·sin(cutAngleDeg/2) laterally (length·sin with
length = 2·cutDepth, not 2·cutDepth/cos), and whose depth into the surface is
exactly cutDepth (the apex is the innermost point of the placed profile). -/
theorem knurl_wedge_profile (cut_angle cut_depth radius : ℝ)
    (ha0 : 0 < cut_angle) (ha1 : cut_angle < 180) (hd : 0 < cut_depth) :
    wedgeV0 cut_angle cut_depth = (-cut_depth, 0) ∧
    wedgeV1 cut_angle cut_depth - wedgeV0 cut_angle cut_depth
      = (2 * cut_depth * Real.cos (cut_angle / 2 * Real.pi / 180),
         2 * cut_depth * Real.sin (cut_angle / 2 * Real.pi / 180)) ∧
    wedgeV2 cut_angle cut_depth - wedgeV0 cut_angle cut_depth
      = (2 * cut_depth * Real.cos (cut_angle / 2 * Real.pi / 180),
         -(2 * cut_depth * Real.sin (cut_angle / 2 * Real.pi / 180))) ∧
    (wedgeV0 cut_angle cut_depth).1 < (wedgeV1 cut_angle cut_depth).1 ∧
    (∀ p ∈ wedgeAt radius cut_angle cut_depth, radius - cut_depth ≤ p.1) ∧
    (radius - cut_depth, 0) ∈ wedgeAt radius cut_angle cut_depth := by
  have hpi := Real.pi_pos
  have hθ1 : 0 < cut_angle / 2 * Real.pi / 180 := by positivity
  have hθ2 : cut_angle / 2 * Real.pi / 180 < Real.pi / 2 := by nlinarith
  have hcos : 0 < Real.cos (cut_angle / 2 * Real.pi / 180) :=
    Real.cos_pos_of_mem_Ioo ⟨by linarith, hθ2⟩
  have hx1 : 0 < knurlX1 cut_angle cut_depth := by
    unfold knurlX1 knurlLength
    positivity
  have hhalf : ∀ v ∈ ({wedgeV0 cut_angle cut_depth, wedgeV1 cut_angle cut_depth,
      wedgeV2 cut_angle cut_depth} : Set (ℝ × ℝ)), -cut_depth ≤ v.1 := by
    intro v hv
    rcases hv with rfl | rfl | rfl
    · exact le_refl _
    · simp only [wedgeV1]
      linarith
    · simp only [wedgeV2]
      linarith
  have hconv : Convex ℝ {p : ℝ × ℝ | -cut_depth ≤ p.1} := by
    intro p hp q hq a b ha hb hab
    simp only [Set.mem_setOf_eq] at hp hq ⊢
    have hps : (a • p + b • q).1 = a * p.1 + b * q.1 := rfl
    rw [hps]
    nlinarith [mul_le_mul_of_nonneg_left hp ha, mul_le_mul_of_nonneg_left hq hb]
  have hsub : wedge cut_angle cut_depth ⊆ {p : ℝ × ℝ | -cut_depth ≤ p.1} := by
    unfold wedge
    exact convexHull_min hhalf hconv
  refine ⟨rfl, ?_, ?_, ?_, ?_, ?_⟩
  · simp only [wedgeV1, wedgeV0, knurlX1, knurlY1, knurlLength, Prod.mk_sub_mk,
      Prod.mk.injEq]
    constructor <;> ring
  · simp only [wedgeV2, wedgeV0, knurlX1, knurlY1, knurlLength, Prod.mk_sub_mk,
      Prod.mk.injEq]
    constructor <;> ring
  · simp only [wedgeV0, wedgeV1]
    linarith
  · intro p hp
    obtain ⟨v, hv, rfl⟩ := hp
    have := hsub hv
    simp only [Set.mem_setOf_eq] at this
    simp only
    linarith
  · refine ⟨(-cut_depth, 0), ?_, by simp; ring⟩
    unfold wedge
    exact subset_convexHull ℝ _ (by simp [wedgeV0])

/-- C2 witness: cut angle 120° and cut depth w/3 shape of the screw-cap
call site, radius 10. -/
theorem knurl_wedge_profile_witness :
    (wedgeV0 120 1).1 < (wedgeV1 120 1).1 ∧ (10 - 1, 0) ∈ wedgeAt 10 120 1 :=
  ⟨(knurl_wedge_profile 120 1 10 (by norm_num) (by norm_num) (by norm_num)).2.2.2.1,
   (knurl_wedge_profile 120 1 10 (by norm_num) (by norm_num) (by norm_num)).2.2.2.2.2⟩

/-- C2 counterexample: at cutAngleDeg = 90, cutDepth = 1 the code's base
half-span is 2·sin(45°) = √2 while the claim's formula
(2/cos(45°))·sin(45°) gives 2: the claimed length 2·cutDepth/cos(half) does
not match the code's length = 2·cutDepth. -/
theorem knurl_wedge_span_counterexample : wedgeHalfSpan 90 1 ≠ specWedgeHalfSpan 90 1 := by
  unfold wedgeHalfSpan specWedgeHalfSpan knurlY1 knurlLength
  have h45 : (90 : ℝ) / 2 * Real.pi / 180 = Real.pi / 4 := by ring
  rw [h45, Real.sin_pi_div_four, Real.cos_pi_div_four]
  have h2 : (0 : ℝ) < Real.sqrt 2 := Real.sqrt_pos.mpr (by norm_num)
  have hsq : Real.sqrt 2 ^ 2 = 2 := Real.sq_sqrt (by norm_num)
  intro heq
  field_simp at heq
  nlinarith

/-! ## Hexagonal ventilation mesh tiler: enclosure.hex_mesh -/

/-- rb as computed by hex_mesh (enclosure.py lines 61-63):
rb = (r·cos(30°) + mesh_th/2) · cos(30°). -/
noncomputable def hexRb (r th : ℝ) : ℝ :=
  (r * Real.cos (Real.pi / 6) + th / 2) * Real.cos (Real.pi / 6)

/-- dx = rb · 1.5 (enclosure.py line 64). -/
noncomputable def hexDx (r th : ℝ) : ℝ := hexRb r th * (3 / 2)

/-- dy = rb · cos(30°) (enclosure.py line 65). -/
noncomputable def hexDy (r th : ℝ) : ℝ := hexRb r th * Real.cos (Real.pi / 6)

/-- w = rb · (3n - 1) (enclosure.py line 67). -/
noncomputable def hexW (n : ℕ) (r th : ℝ) : ℝ := hexRb r th * (3 * (n : ℝ) - 1)

/-- h = m'·dy over the reassigned row count m' = 2m - 1
(enclosure.py lines 60, 68). -/
noncomputable def hexH (m : ℕ) (r th : ℝ) : ℝ := ((2 * m - 1 : ℕ) : ℝ) * hexDy r th

/-- Row size: n - 1 cells in odd rows, n in even rows (enclosure.py line 73). -/
def hexRowLen (n y : ℕ) : ℕ := if y % 2 = 1 then n - 1 else n

/-- The hexagon centre generated for row y, column i
(enclosure.py lines 74-79): the odd-row shift x_s is dx. -/
noncomputable def hexPt (n m : ℕ) (r th : ℝ) (y i : ℕ) : ℝ × ℝ :=
  ((i : ℝ) * 2 * hexDx r th + (if y % 2 = 1 then hexDx r th else 0)
      - hexW n r th / 2 + hexRb r th,
   (y : ℝ) * hexDy r th - hexH m r th / 2 + hexDy r th / 2)

/-- All hexagon centres of hex_mesh(n, m, r, mesh_th): 2m - 1 brick-offset
rows of alternating size. -/
noncomputable def hexMeshPoints (n m : ℕ) (r th : ℝ) : List (ℝ × ℝ) :=
  (List.range (2 * m - 1)).flatMap fun (y : ℕ) =>
    (List.range (hexRowLen n y)).map (hexPt n m r th y)

/-- Total number of cells in the first M rows. -/
theorem hexRow_sum (n M : ℕ) :
    ((List.range M).map (fun y => hexRowLen n y)).sum = M * n - M / 2 := by
  induction M with
  | zero => simp
  | succ M ih =>
    rw [List.range_succ, List.map_append, List.sum_append]
    simp only [List.map_cons, List.map_nil, List.sum_cons, List.sum_nil]
    rw [ih]
    have hMn : (M + 1) * n = M * n + n := by ring
    rcases Nat.eq_zero_or_pos n with hn | hn
    · subst hn
      simp [hexRowLen]
    · have hd : M / 2 ≤ M * n :=
        le_trans (Nat.div_le_self M 2) (Nat.le_mul_of_pos_right M hn)
      unfold hexRowLen
      by_cases hM : M % 2 = 1
      · rw [if_pos hM, hMn]
        omega
      · rw [if_neg hM, hMn]
        omega

/-- The number of generated centres is rows·columns - rows/2 (floor),
rows = 2m - 1. -/
theorem hexMeshPoints_length (n m : ℕ) (r th : ℝ) :
    (hexMeshPoints n m r th).length = (2 * m - 1) * n - (2 * m - 1) / 2 := by
  unfold hexMeshPoints
  rw [List.length_flatMap]
  simp only [Function.comp_def, List.length_map, List.length_range]
  exact hexRow_sum n (2 * m - 1)

/-- Membership characterisation of the generated centre list. -/
theorem mem_hexMeshPoints (n m : ℕ) (r th : ℝ) (p : ℝ × ℝ) :
    p ∈ hexMeshPoints n m r th ↔
      ∃ y, y < 2 * m - 1 ∧ ∃ i, i < hexRowLen n y ∧ p = hexPt n m r th y i := by
  unfold hexMeshPoints
  simp only [List.mem_flatMap, List.mem_map, List.mem_range]
  constructor
  · rintro ⟨y, hy, i, hi, rfl⟩
    exact ⟨y, hy, i, hi, rfl⟩
  · rintro ⟨y, hy, i, hi, rfl⟩
    exact ⟨y, hy, i, hi, rfl⟩

/-- The centre grid is centred on the region: it is closed under negation,
the mirror of row y, cell i being row 2m-2-y, cell rowLen-1-i. -/
theorem hexMeshPoints_neg_mem (n m : ℕ) (r th : ℝ) (hm : 1 ≤ m)
    (p : ℝ × ℝ) (hp : p ∈ hexMeshPoints n m r th) :
    (-p.1, -p.2) ∈ hexMeshPoints n m r th := by
  rw [mem_hexMeshPoints] at hp ⊢
  obtain ⟨y, hy, i, hi, rfl⟩ := hp
  have hpar : (2 * m - 2 - y) % 2 = y % 2 := by omega
  have hrl : hexRowLen n (2 * m - 2 - y) = hexRowLen n y := by
    unfold hexRowLen
    rw [hpar]
  refine ⟨2 * m - 2 - y, by omega, hexRowLen n y - 1 - i, by rw [hrl]; omega, ?_⟩
  have hm2 : ((2 * m - 1 : ℕ) : ℝ) = 2 * (m : ℝ) - 1 := by
    rw [Nat.cast_sub (by omega : 1 ≤ 2 * m)]
    push_cast
    ring
  have hyc : ((2 * m - 2 - y : ℕ) : ℝ) = 2 * (m : ℝ) - 2 - (y : ℝ) := by
    have h1 : 2 * m - 2 - y = 2 * m - (2 + y) := by omega
    rw [h1, Nat.cast_sub (by omega : 2 + y ≤ 2 * m)]
    push_cast
    ring
  by_cases hyo : y % 2 = 1
  · have hyo' : (2 * m - 2 - y) % 2 = 1 := by omega
    have hrow : hexRowLen n y = n - 1 := by unfold hexRowLen; rw [if_pos hyo]
    have hn2 : 2 ≤ n := by
      rw [hrow] at hi
      omega
    have hidx : hexRowLen n y - 1 - i = n - (2 + i) := by rw [hrow]; omega
    have hic : ((n - (2 + i) : ℕ) : ℝ) = (n : ℝ) - 2 - (i : ℝ) := by
      have hin : 2 + i ≤ n := by
        rw [hrow] at hi
        omega
      rw [Nat.cast_sub hin]
      push_cast
      ring
    rw [hidx]
    unfold hexPt hexW hexH hexDx
    rw [if_pos hyo, if_pos hyo', hic, hyc, hm2, Prod.mk.injEq]
    constructor <;> ring
  · have hyo' : ¬((2 * m - 2 - y) % 2 = 1) := by omega
    have hrow : hexRowLen n y = n := by unfold hexRowLen; rw [if_neg hyo]
    have hn1 : 1 ≤ n := by
      rw [hrow] at hi
      omega
    have hidx : hexRowLen n y - 1 - i = n - (1 + i) := by rw [hrow]; omega
    have hic : ((n - (1 + i) : ℕ) : ℝ) = (n : ℝ) - 1 - (i : ℝ) := by
      have hin : 1 + i ≤ n := by
        rw [hrow] at hi
        omega
      rw [Nat.cast_sub hin]
      push_cast
      ring
    rw [hidx]
    unfold hexPt hexW hexH hexDx
    rw [if_neg hyo, if_neg hyo', hic, hyc, hm2, Prod.mk.injEq]
    constructor <;> ring

/-- No generated centre leaves the w × h bounding box centred at the
origin. -/
theorem hexMeshPoints_in_bbox (n m : ℕ) (r th : ℝ) (hm : 1 ≤ m)
    (hr : 0 < r) (hth : 0 ≤ th)
    (p : ℝ × ℝ) (hp : p ∈ hexMeshPoints n m r th) :
    |p.1| ≤ hexW n r th / 2 ∧ |p.2| ≤ hexH m r th / 2 := by
  have hcos : Real.cos (Real.pi / 6) = Real.sqrt 3 / 2 := Real.cos_pi_div_six
  have hs3 : (0 : ℝ) < Real.sqrt 3 := Real.sqrt_pos.mpr (by norm_num)
  have hrb : 0 < hexRb r th := by
    unfold hexRb
    rw [hcos]
    have hA : 0 < r * (Real.sqrt 3 / 2) + th / 2 := by
      nlinarith [mul_pos hr hs3]
    exact mul_pos hA (by linarith)
  have hdy : 0 < hexDy r th := by
    unfold hexDy
    rw [hcos]
    exact mul_pos hrb (by linarith)
  rw [mem_hexMeshPoints] at hp
  obtain ⟨y, hy, i, hi, rfl⟩ := hp
  have hm2 : ((2 * m - 1 : ℕ) : ℝ) = 2 * (m : ℝ) - 1 := by
    rw [Nat.cast_sub (by omega : 1 ≤ 2 * m)]
    push_cast
    ring
  have hyc : (y : ℝ) ≤ 2 * (m : ℝ) - 2 := by
    have h1 : (y : ℝ) + 1 ≤ ((2 * m - 1 : ℕ) : ℝ) := by
      exact_mod_cast Nat.succ_le_of_lt hy
    rw [hm2] at h1
    linarith
  have hy0 : (0 : ℝ) ≤ (y : ℝ) := Nat.cast_nonneg y
  have hi0 : (0 : ℝ) ≤ (i : ℝ) := Nat.cast_nonneg i
  constructor
  · by_cases hyo : y % 2 = 1
    · have hrow : hexRowLen n y = n - 1 := by unfold hexRowLen; rw [if_pos hyo]
      have hn2 : 2 ≤ n := by rw [hrow] at hi; omega
      have hic : (i : ℝ) ≤ (n : ℝ) - 2 := by
        have h1 : (i : ℝ) + 2 ≤ (n : ℝ) := by
          have : i + 2 ≤ n := by rw [hrow] at hi; omega
          exact_mod_cast this
        linarith
      unfold hexPt hexW hexDx
      rw [if_pos hyo, abs_le]
      constructor <;> simp only <;> nlinarith
    · have hrow : hexRowLen n y = n := by unfold hexRowLen; rw [if_neg hyo]
      have hn1 : 1 ≤ n := by rw [hrow] at hi; omega
      have hic : (i : ℝ) ≤ (n : ℝ) - 1 := by
        have h1 : (i : ℝ) + 1 ≤ (n : ℝ) := by
          have : i + 1 ≤ n := by rw [hrow] at hi; omega
          exact_mod_cast this
        linarith
      unfold hexPt hexW hexDx
      rw [if_neg hyo, abs_le]
      constructor <;> simp only <;> nlinarith
  · unfold hexPt hexH
    rw [hm2, abs_le]
    constructor <;> simp only <;> nlinarith

/-- C3: hex_mesh with n columns and row parameter m generates 2m - 1
brick-offset rows (odd rows shifted by dx, half the horizontal step 2·dx),
a total of rows·columns - rows/2 centres (rows = 2m - 1), a centre set
closed under point reflection about the region centre, and no centre
outside the w × h bounding box with w = rb·(3n - 1) and h = (2m - 1)·dy. -/
theorem hex_tiling_coverage (n m : ℕ) (r th : ℝ) (hn : 1 ≤ n) (hm : 1 ≤ m)
    (hr : 0 < r) (hth : 0 ≤ th) :
    (hexMeshPoints n m r th).length = (2 * m - 1) * n - (2 * m - 1) / 2 ∧
    (∀ y, hexRowLen n y = if y % 2 = 1 then n - 1 else n) ∧
    (∀ y i, y % 2 = 1 →
      (hexPt n m r th y i).1 = (hexPt n m r th 0 i).1 + hexDx r th) ∧
    (∀ p ∈ hexMeshPoints n m r th, (-p.1, -p.2) ∈ hexMeshPoints n m r th) ∧
    (∀ p ∈ hexMeshPoints n m r th,
      |p.1| ≤ hexW n r th / 2 ∧ |p.2| ≤ hexH m r th / 2) := by
  refine ⟨hexMeshPoints_length n m r th, fun y => rfl, ?_, ?_, ?_⟩
  · intro y i hyo
    unfold hexPt
    rw [if_pos hyo, if_neg (by norm_num : ¬((0 : ℕ) % 2 = 1))]
    simp only
    ring
  · exact fun p hp => hexMeshPoints_neg_mem n m r th hm p hp
  · exact fun p hp => hexMeshPoints_in_bbox n m r th hm hr hth p hp

/-- C3 witness: the enclosure call site hex_mesh(6, 5, 1.5, 2): 9 rows of
6/5 cells give 50 centres. -/
theorem hex_tiling_coverage_witness :
    (hexMeshPoints 6 5 (3 / 2) 2).length = (2 * 5 - 1) * 6 - (2 * 5 - 1) / 2 :=
  (hex_tiling_coverage 6 5 (3 / 2) 2 (by norm_num) (by norm_num) (by norm_num)
    (by norm_num)).1

/-! ## Slot-angle auto-derivation: enclosure.slanted_slots vs util.gen_slot_data -/

/-- slanted_slots' auto-derived angle (enclosure.py line 39):
degrees(atan(w/h)). -/
noncomputable def slantedSlotsAngle (w h : ℝ) : ℝ := Real.arctan (w / h) * 180 / Real.pi

/-- gen_slot_data's auto-derived angle (util.py lines 177-178):
ac = -w/h; a = 90 - degrees(-atan(ac)). -/
noncomputable def genSlotAngle (w h : ℝ) : ℝ :=
  90 - -Real.arctan (-(w / h)) * 180 / Real.pi

/-- C8: the two slot-mesh variants derive different angles from the same
w × h region — slanted_slots uses degrees(atan(w/h)), gen_slot_data uses
90 - degrees(atan(w/h)) — and the two coincide exactly when w = h, so the
variants are not equivalent strategies. -/
theorem slot_angle_variants_differ (w h : ℝ) (hw : 0 < w) (hh : 0 < h) :
    slantedSlotsAngle w h = genSlotAngle w h ↔ w = h := by
  have hpi := Real.pi_pos
  unfold slantedSlotsAngle genSlotAngle
  rw [Real.arctan_neg, neg_neg]
  constructor
  · intro heq
    have h2 : Real.arctan (w / h) * 180 / Real.pi * 2 = 90 := by linarith
    have h3 : Real.arctan (w / h) = Real.pi / 4 := by
      field_simp at h2
      linarith
    have h4 : w / h = 1 :=
      Real.arctan_injective (by rw [h3, Real.arctan_one])
    field_simp at h4
    exact h4
  · intro heq
    subst heq
    rw [div_self (ne_of_gt hh), Real.arctan_one]
    field_simp
    ring

/-- C8 witness: at w = 2, h = 1 the two derived angles differ. -/
theorem slot_angle_variants_differ_witness :
    ¬slantedSlotsAngle 2 1 = genSlotAngle 2 1 := fun he =>
  absurd ((slot_angle_variants_differ 2 1 (by norm_num) (by norm_num)).mp he)
    (by norm_num)

end CadqueryPlayground
